import Mathlib

set_option maxRecDepth 8000

/- Verification development for the SCOAP testability-metric generator
(codes/scoap.py).  The Python source is shallowly embedded: the metric value
domain (Python ints together with math.inf) becomes the inductive type EV with
saturating arithmetic; Python dicts keyed by net names become total functions
from String, which agree with the dicts on every key the program can look up
(the program only reads keys present in the net universe); the unbounded
while-loops of the two relaxation engines become fuel-indexed iteration, with
fixed-point hypotheses expressing that the loop has converged.  Character-level
details (\w, \d, \s of the Python regexes, str.upper) are modelled over ASCII;
every input exercised by the claims is ASCII. -/

/-- Metric values: either a natural number or the "infinite" sentinel math.inf.
The program only ever adds and compares such values, so Python float
arithmetic on them is exactly saturating natural arithmetic. -/
inductive EV where
  | inf : EV
  | fin : Nat → EV
  deriving DecidableEq

/-- Addition with absorbing infinity (math.inf + x = math.inf). -/
def EV.add : EV → EV → EV
  | .fin a, .fin b => .fin (a + b)
  | _, _ => .inf

instance : Add EV := ⟨EV.add⟩

/-- Boolean strict comparison, as Python `<` behaves on these values
(inf < inf is false, n < inf is true). -/
def EV.blt : EV → EV → Bool
  | .inf, _ => false
  | .fin _, .inf => true
  | .fin a, .fin b => decide (a < b)

/-- Boolean non-strict comparison (used only in specifications). -/
def EV.ble : EV → EV → Bool
  | .fin _, .inf => true
  | .inf, .inf => true
  | .inf, .fin _ => false
  | .fin a, .fin b => decide (a ≤ b)

/-- Python's two-argument min: the second argument wins only when it is
strictly smaller, exactly `b if b < a else a`. -/
def EV.min (a b : EV) : EV := if EV.blt b a then b else a

/-- Python `min(xs)` over a list: None on the empty list (where the Python
call raises ValueError, which the engines swallow and treat as a skip),
otherwise the left fold of two-argument min over the list. -/
def pyMinL : List EV → Option EV
  | [] => none
  | x :: xs => some (xs.foldl EV.min x)

/-- Python `sum(xs)`, starting from 0 as Python does. -/
def pySum (l : List EV) : EV := l.foldl (· + ·) (EV.fin 0)

/-- A metric map: Python dict from net name to value, modelled as a total
function (it agrees with the dict on all keys the program ever reads). -/
def NetMap : Type := String → EV

/-- Dict assignment `m[k] = v`. -/
def upd (m : NetMap) (k : String) (v : EV) : NetMap :=
  fun n => if n = k then v else m n

/-- Pointwise comparison of metric maps. -/
def mapLE (f g : NetMap) : Prop := ∀ n, EV.ble (f n) (g n) = true

/-- One gate record as produced by the parser: textual kind, one output net,
and the ordered input-net list. -/
structure Gate where
  gtype : String
  out : String
  ins : List String
  deriving DecidableEq

/-- listHasPre pat cs: pat is a leading block of cs. -/
def listHasPre : List Char → List Char → Bool
  | [], _ => true
  | _ :: _, [] => false
  | p :: ps, c :: cs => p == c && listHasPre ps cs

/-- listHasSub pat cs: pat occurs contiguously somewhere in cs. -/
def listHasSub (pat : List Char) : List Char → Bool
  | [] => listHasPre pat []
  | c :: cs => listHasPre pat (c :: cs) || listHasSub pat cs

/-- Python's substring test `pat in s`. -/
def pyIn (pat s : String) : Bool := listHasSub pat.toList s.toList

/-- Python `str.upper()` on one character, over ASCII. -/
def upChar (c : Char) : Char :=
  if 97 ≤ c.toNat ∧ c.toNat ≤ 122 then Char.ofNat (c.toNat - 32) else c

/-- Python `str.upper()`, over ASCII. -/
def pyUpper (s : String) : String := String.mk (s.toList.map upChar)

/-- Word splitter for Python `str.split()` with no argument: splits on runs
of whitespace and never yields empty words.  `acc` holds the characters of
the word currently being read, in reverse. -/
def splitWSAux : List Char → List Char → List String
  | [], [] => []
  | [], acc => [String.mk acc.reverse]
  | c :: cs, acc =>
    if c.isWhitespace then
      match acc with
      | [] => splitWSAux cs []
      | _ => String.mk acc.reverse :: splitWSAux cs []
    else splitWSAux cs (c :: acc)

/-- Python `line.split()`. -/
def pySplit (s : String) : List String := splitWSAux s.toList []

/-- ASCII model of the regex class \w (Python also accepts further Unicode
word characters; no claim involves them). -/
def isWordChar (c : Char) : Bool := c.isAlphanum || c == '_'

/-- Value of a non-empty ASCII digit string, as Python int() computes it. -/
def natOfDigits (ds : List Char) : Nat :=
  ds.foldl (fun a c => a * 10 + (c.toNat - 48)) 0

/-- Python `range(start, stop, step)` for step = 1 or -1, the only steps the
program uses. -/
def pyRange (start stop step : Int) : List Int :=
  if step < 0 then (List.range (start - stop).toNat).map (fun k => start - k)
  else (List.range (stop - start).toNat).map (fun k => start + k)

/-- Matcher for VECTOR_RE = `^(\w+)\[(\d+):(\d+)\]$`: the base name is the
maximal leading run of word characters (\w cannot match `[`), then the two
digit groups; `$` demands the closing bracket end the string.  Returns the
captured base and the two bounds as numbers, as the caller converts them. -/
def vecMatch (s : String) : Option (String × Nat × Nat) :=
  match s.toList.span isWordChar with
  | (w, rest) =>
    if w.isEmpty then none else
    match rest with
    | '[' :: r1 =>
      match r1.span Char.isDigit with
      | (d1, r2) =>
        if d1.isEmpty then none else
        match r2 with
        | ':' :: r3 =>
          match r3.span Char.isDigit with
          | (d2, r4) =>
            if d2.isEmpty then none else
            match r4 with
            | [']'] => some (String.mk w, natOfDigits d1, natOfDigits d2)
            | _ => none
        | _ => none
    | _ => none

/-- expand_vector from scoap.py: a non-matching token passes through as a
singleton; a matching token `base[msb:lsb]` expands through
`range(msb, lsb - step, step)` with step = -1 if msb >= lsb else 1. -/
def expand_vector (signal : String) : List String :=
  match vecMatch signal with
  | none => [signal]
  | some (base, msb, lsb) =>
    let step : Int := if msb ≥ lsb then -1 else 1
    (pyRange msb ((lsb : Int) - step) step).map
      (fun i => base ++ "[" ++ toString i ++ "]")

/-- Consume one-or-more whitespace characters (the regex piece `\s+`),
returning the rest of the input, or None if the first character is not
whitespace. -/
def dropSpaces1 : List Char → Option (List Char)
  | c :: rest => if c.isWhitespace then some (rest.dropWhile Char.isWhitespace) else none
  | [] => none

/-- Consume an exact literal. -/
def expectLit : List Char → List Char → Option (List Char)
  | [], cs => some cs
  | p :: ps, c :: cs => if p == c then expectLit ps cs else none
  | _ :: _, [] => none

/-- Captured group of the regex piece `\s*([^)]+)` applied to the segment of
characters standing before the closing bracket: the greedy `\s*` eats the
whitespace, except that when the segment is all whitespace it backtracks and
leaves its last character to the one-or-more group. -/
def segGroup (seg : List Char) : List Char :=
  let t := seg.dropWhile Char.isWhitespace
  if t.isEmpty then [seg.getLastD ' '] else t

/-- Matcher for GATE_RE = `^\s*(\w+)\s+out\(\s*([^)]+)\)\s+in\(\s*([^)]+)\)\s*$`.
Deterministic because \w, \s and the literals cannot overlap, and `[^)]+`
runs exactly to the next closing bracket.  Returns the three captured groups. -/
def gateMatch (line : String) : Option (String × String × String) :=
  let cs := line.toList.dropWhile Char.isWhitespace
  match cs.span isWordChar with
  | (w, r1) =>
    if w.isEmpty then none else
    match dropSpaces1 r1 with
    | none => none
    | some r2 =>
      match expectLit "out(".toList r2 with
      | none => none
      | some r3 =>
        match r3.span (fun c => c != ')') with
        | (seg1, r4) =>
          match r4 with
          | ')' :: r5 =>
            if seg1.isEmpty then none else
            match dropSpaces1 r5 with
            | none => none
            | some r6 =>
              match expectLit "in(".toList r6 with
              | none => none
              | some r7 =>
                match r7.span (fun c => c != ')') with
                | (seg2, r8) =>
                  match r8 with
                  | ')' :: r9 =>
                    if seg2.isEmpty then none
                    else if (r9.dropWhile Char.isWhitespace).isEmpty then
                      some (String.mk w, String.mk (segGroup seg1),
                            String.mk (segGroup seg2))
                    else none
                  | _ => none
          | _ => none

/-- Python `line.startswith(pre)`. -/
def pyStarts (s pre : String) : Bool := listHasPre pre.toList s.toList

/-- The three recognised sections of the intermediate netlist text. -/
inductive Sec where
  | input : Sec
  | output : Sec
  | gates : Sec
  deriving DecidableEq

/-- Parser state of parse_sections: current section, the line number the
next line will carry (enumerate(lines, start=1)), the accumulated lists, and
the emitted skip diagnostics as (lineno, line) pairs. -/
structure PState where
  sec : Option Sec
  lineno : Nat
  inputs : List String
  outputs : List String
  gates : List Gate
  warns : List (Nat × String)
  deriving DecidableEq

/-- Initial parser state. -/
def initPState : PState :=
  { sec := none, lineno := 1, inputs := [], outputs := [], gates := [], warns := [] }

/-- One iteration of the parse_sections loop on one line. -/
def pstep (s : PState) (line : String) : PState :=
  let s' := { s with lineno := s.lineno + 1 }
  if pyStarts line "#" then
    if pyIn "Primary Inputs" line then { s' with sec := some Sec.input }
    else if pyIn "Primary Outputs" line then { s' with sec := some Sec.output }
    else if pyIn "Complete Paths" line then { s' with sec := some Sec.gates }
    else { s' with sec := none }
  else
    match s.sec with
    | some Sec.input =>
      { s' with inputs := (pySplit line).foldl (fun acc tok => acc ++ expand_vector tok) s'.inputs }
    | some Sec.output =>
      { s' with outputs := (pySplit line).foldl (fun acc tok => acc ++ expand_vector tok) s'.outputs }
    | some Sec.gates =>
      match gateMatch line with
      | some (gtype, outsRaw, insRaw) =>
        let outs := pySplit outsRaw
        let ins := pySplit insRaw
        { s' with gates := s'.gates ++ outs.map (fun o => { gtype := gtype, out := o, ins := ins }) }
      | none => { s' with warns := s'.warns ++ [(s.lineno, line)] }
    | none => s'

/-- The parse_sections line loop. -/
def runP (s : PState) (ls : List String) : PState := ls.foldl pstep s

/-- Append one fanout arc into the insertion-ordered association list that
models the defaultdict(list) of parse_sections. -/
def addFan (acc : List (String × List String)) (i o : String) : List (String × List String) :=
  if acc.any (fun p => p.1 = i) then
    acc.map (fun p => if p.1 = i then (p.1, p.2 ++ [o]) else p)
  else acc ++ [(i, [o])]

/-- Fanout reconstruction of parse_sections: for every gate in order, every
input net gains the gate's output net. -/
def fanoutList (gates : List Gate) : List (String × List String) :=
  gates.foldl (fun acc g => g.ins.foldl (fun a i => addFan a i g.out) acc) []

/-- parse_sections: inputs, outputs, fanout list and gate list. -/
def parse_sections (lines : List String) :
    List String × List String × List (String × List String) × List Gate :=
  let s := runP initPState lines
  (s.inputs, s.outputs, fanoutList s.gates, s.gates)

/-- Dict initialisation `{n: (1 if n in members else math.inf) for n in nets}`,
as the total-function model (the nets list only fixes the dict's key set). -/
def initMap (members : List String) : NetMap :=
  fun n => if n ∈ members then EV.fin 1 else EV.inf

/-- Conditional relaxation write: store the candidate only when it is
strictly smaller than the current value, and report whether a write happened. -/
def writeMin (m : NetMap) (k : String) (v : EV) : NetMap × Bool :=
  if EV.blt v (m k) then (upd m k v, true) else (m, false)

/-- The two controllability maps. -/
structure CtrlState where
  CC0 : NetMap
  CC1 : NetMap

/-- Initial controllability state: CC0 = CC1 = 1 on primary inputs,
infinite elsewhere. -/
def ctrlInitState (inputs : List String) : CtrlState :=
  { CC0 := initMap inputs, CC1 := initMap inputs }

/-- The gate-kind dispatch of build_controllability: the candidate pair
(new0, new1) for the gate's output, or None when the branch taken raises
(min of an empty list, tuple unpacking of a list whose length is not 2, or
indexing an empty list), which the bare except turns into a skip.  The
branches test substrings of the upper-cased kind in the source's order; note
that any kind containing "XOR" also contains "OR", so the XOR branch is
unreachable. -/
def ctrlCand (cc0 cc1 : NetMap) (g : Gate) : Option (EV × EV) :=
  if pyIn "NAND" (pyUpper g.gtype) then
    match pyMinL (g.ins.map cc0) with
    | none => none
    | some m => some (EV.fin 1 + m, EV.fin 1 + pySum (g.ins.map cc1))
  else if pyIn "AND" (pyUpper g.gtype) then
    match pyMinL (g.ins.map cc1) with
    | none => none
    | some m => some (EV.fin 1 + pySum (g.ins.map cc0), EV.fin 1 + m)
  else if pyIn "NOR" (pyUpper g.gtype) then
    match pyMinL (g.ins.map cc0) with
    | none => none
    | some m => some (EV.fin 1 + pySum (g.ins.map cc1), EV.fin 1 + m)
  else if pyIn "OR" (pyUpper g.gtype) then
    match pyMinL (g.ins.map cc0) with
    | none => none
    | some m => some (EV.fin 1 + m, EV.fin 1 + pySum (g.ins.map cc1))
  else if pyIn "XOR" (pyUpper g.gtype) then
    match g.ins.map cc0, g.ins.map cc1 with
    | [a0, b0], [a1, b1] =>
      some (EV.fin 1 + EV.min (a0 + b1) (a1 + b0), EV.fin 1 + EV.min (a0 + b0) (a1 + b1))
    | _, _ => none
  else if pyIn "INV" (pyUpper g.gtype) || pyIn "NOT" (pyUpper g.gtype) then
    match g.ins with
    | [] => none
    | i :: _ => some (EV.fin 1 + cc1 i, EV.fin 1 + cc0 i)
  else if pyIn "BUF" (pyUpper g.gtype) then
    match g.ins with
    | [] => none
    | i :: _ => some (EV.fin 1 + cc0 i, EV.fin 1 + cc1 i)
  else
    match g.ins with
    | [] => none
    | i :: _ => some (EV.fin 1 + cc1 i, EV.fin 1 + cc0 i)

/-- Relaxing one gate in the controllability engine: compute the candidate
pair from the current maps, then conditionally write each component. -/
def ctrlRelaxGate (s : CtrlState) (g : Gate) : CtrlState × Bool :=
  match ctrlCand s.CC0 s.CC1 g with
  | none => (s, false)
  | some (n0, n1) =>
    let r0 := writeMin s.CC0 g.out n0
    let r1 := writeMin s.CC1 g.out n1
    ({ CC0 := r0.1, CC1 := r1.1 }, r0.2 || r1.2)

/-- The for-loop over the gate list inside one controllability pass,
threading the changed flag. -/
def ctrlPassGo : List Gate → CtrlState → Bool → CtrlState × Bool
  | [], s, ch => (s, ch)
  | g :: rest, s, ch =>
    let r := ctrlRelaxGate s g
    ctrlPassGo rest r.1 (ch || r.2)

/-- One full controllability pass (changed starts False). -/
def ctrlPass (gates : List Gate) (s : CtrlState) : CtrlState × Bool :=
  ctrlPassGo gates s false

/-- The while-changed loop, fuel-indexed: stops early at the first pass that
changes nothing, which is exactly where the Python loop exits. -/
def ctrlLoop : Nat → List Gate → CtrlState → CtrlState
  | 0, _, s => s
  | fuel + 1, gates, s =>
    let r := ctrlPass gates s
    if r.2 then ctrlLoop fuel gates r.1 else r.1

/-- build_controllability.  The nets argument only fixes the key set of the
Python dicts and is retained for signature fidelity; fuel bounds the
while-loop, whose convergence theorems state as a hypothesis. -/
def build_controllability (nets inputs : List String) (gates : List Gate)
    (fuel : Nat) : CtrlState :=
  ctrlLoop fuel gates (ctrlInitState inputs)

/-- The backward candidates one gate contributes in build_observability, as
the ordered list of (input net, candidate) writes the source performs: none
for a gate with no inputs (the i1,i2 unpacking raises and the bare except
skips the gate), CO(o)+1 for a single input, and for two or more inputs the
kind-dispatched pair on the first two inputs only.  All candidates are
computed from the observability map before this gate's writes, exactly as
the source reads coo and the controllability values first. -/
def obsCands (cc0 cc1 : NetMap) (CO : NetMap) (g : Gate) : List (String × EV) :=
  match g.ins with
  | [] => []
  | [i] => [(i, CO g.out + EV.fin 1)]
  | i1 :: i2 :: _ =>
    if pyIn "AND" (pyUpper g.gtype) || pyIn "NAND" (pyUpper g.gtype) then
      [(i1, CO g.out + cc1 i2 + EV.fin 1), (i2, CO g.out + cc1 i1 + EV.fin 1)]
    else if pyIn "OR" (pyUpper g.gtype) || pyIn "NOR" (pyUpper g.gtype) then
      [(i1, CO g.out + cc0 i2 + EV.fin 1), (i2, CO g.out + cc0 i1 + EV.fin 1)]
    else if pyIn "XOR" (pyUpper g.gtype) || pyIn "XNOR" (pyUpper g.gtype) then
      [(i1, CO g.out + EV.min (cc0 i2 + cc1 i2) (cc0 i1 + cc1 i1) + EV.fin 1),
       (i2, CO g.out + EV.min (cc0 i2 + cc1 i2) (cc0 i1 + cc1 i1) + EV.fin 1)]
    else
      [(i1, CO g.out + EV.fin 1), (i2, CO g.out + EV.fin 1)]

/-- Apply the candidate writes of one gate in order; the second comparison
reads the map after the first conditional write, as the source does. -/
def applyCands : NetMap → Bool → List (String × EV) → NetMap × Bool
  | co, ch, [] => (co, ch)
  | co, ch, (i, v) :: rest =>
    let r := writeMin co i v
    applyCands r.1 (ch || r.2) rest

/-- Relaxing one gate in the observability engine. -/
def obsRelaxGate (cc0 cc1 : NetMap) (co : NetMap) (g : Gate) : NetMap × Bool :=
  applyCands co false (obsCands cc0 cc1 co g)

/-- The for-loop over the gate list inside one observability pass. -/
def obsPassGo (cc0 cc1 : NetMap) : List Gate → NetMap → Bool → NetMap × Bool
  | [], co, ch => (co, ch)
  | g :: rest, co, ch =>
    let r := obsRelaxGate cc0 cc1 co g
    obsPassGo cc0 cc1 rest r.1 (ch || r.2)

/-- One full observability pass. -/
def obsPass (cc0 cc1 : NetMap) (gates : List Gate) (co : NetMap) : NetMap × Bool :=
  obsPassGo cc0 cc1 gates co false

/-- The observability while-changed loop, fuel-indexed. -/
def obsLoop (cc0 cc1 : NetMap) : Nat → List Gate → NetMap → NetMap
  | 0, _, co => co
  | fuel + 1, gates, co =>
    let r := obsPass cc0 cc1 gates co
    if r.2 then obsLoop cc0 cc1 fuel gates r.1 else r.1

/-- build_observability.  nets again only fixes the dict key set, and
fanout_list is accepted and never read, exactly as in the source. -/
def build_observability (nets outputs : List String)
    (fanout_list : List (String × List String)) (cc0 cc1 : NetMap)
    (gates : List Gate) (fuel : Nat) : NetMap :=
  obsLoop cc0 cc1 fuel gates (initMap outputs)

/-- Stability of a controllability state: no gate of the list could lower
either stored value of its output net. -/
def ctrlStable (gates : List Gate) (s : CtrlState) : Prop :=
  ∀ g ∈ gates, ∀ n0 n1, ctrlCand s.CC0 s.CC1 g = some (n0, n1) →
    EV.blt n0 (s.CC0 g.out) = false ∧ EV.blt n1 (s.CC1 g.out) = false

/-- Stability of an observability map: no candidate write of any gate of the
list could lower a stored value. -/
def obsStable (cc0 cc1 : NetMap) (gates : List Gate) (co : NetMap) : Prop :=
  ∀ g ∈ gates, ∀ p ∈ obsCands cc0 cc1 co g, EV.blt p.2 (co p.1) = false

/-- Pointwise comparison of controllability states. -/
def stLE (s t : CtrlState) : Prop := mapLE s.CC0 t.CC0 ∧ mapLE s.CC1 t.CC1

/-- The XOR controllability candidate pair (CC0, CC1) exactly as the
specification's table row states it, for inputs a and b. -/
def specXorCtrlCand (a0 a1 b0 b1 : EV) : EV × EV :=
  (EV.fin 1 + EV.min (a0 + b1) (a1 + b0), EV.fin 1 + EV.min (a0 + b0) (a1 + b1))

/-- The XOR/XNOR observability candidate exactly as the specification states
it: CO(o) + min(CC0(i2)+CC1(i2), CC0(i1)+CC1(i1)) + 1. -/
def specXorObsCand (coo c0i1 c1i1 c0i2 c1i2 : EV) : EV :=
  coo + EV.min (c0i2 + c1i2) (c0i1 + c1i1) + EV.fin 1

/-- Gate list of the specification's Scenario 2. -/
def scenario2Gates : List Gate := [{ gtype := "AND", out := "C", ins := ["A", "B"] }]

/-- Controllability result of Scenario 2 (two passes suffice; fuel 4 is
ample and the fixed-point conjunct of the theorem checks convergence). -/
def scenario2Ctrl : CtrlState :=
  build_controllability ["A", "B", "C"] ["A", "B"] scenario2Gates 4

/-- Observability result of Scenario 2, fed with the reconstructed fanout
list exactly as run() feeds it. -/
def scenario2Obs : NetMap :=
  build_observability ["A", "B", "C"] ["C"] (fanoutList scenario2Gates)
    scenario2Ctrl.CC0 scenario2Ctrl.CC1 scenario2Gates 4

theorem EV.ble_refl (a : EV) : EV.ble a a = true := by
  cases a <;> simp [EV.ble]

theorem EV.ble_trans {a b c : EV} (h1 : EV.ble a b = true) (h2 : EV.ble b c = true) :
    EV.ble a c = true := by
  cases a <;> cases b <;> cases c <;> simp_all [EV.ble] <;> omega

theorem EV.ble_antisymm {a b : EV} (h1 : EV.ble a b = true) (h2 : EV.ble b a = true) :
    a = b := by
  cases a <;> cases b <;> simp_all [EV.ble] <;> omega

theorem EV.ble_of_blt {a b : EV} (h : EV.blt a b = true) : EV.ble a b = true := by
  cases a <;> cases b <;> simp_all [EV.ble, EV.blt] <;> omega

theorem EV.ble_of_not_blt {a b : EV} (h : EV.blt a b = false) : EV.ble b a = true := by
  cases a <;> cases b <;> simp_all [EV.ble, EV.blt] <;> omega

theorem EV.add_def (a b : EV) : a + b = EV.add a b := rfl

theorem EV.add_mono {a b c d : EV} (h1 : EV.ble a b = true) (h2 : EV.ble c d = true) :
    EV.ble (a + c) (b + d) = true := by
  cases a <;> cases b <;> cases c <;> cases d <;>
    simp_all [EV.add_def, EV.add, EV.ble] <;> omega

theorem EV.min_mono {a b c d : EV} (h1 : EV.ble a b = true) (h2 : EV.ble c d = true) :
    EV.ble (EV.min a c) (EV.min b d) = true := by
  unfold EV.min
  by_cases hca : EV.blt c a = true
  · rw [if_pos hca]
    by_cases hdb : EV.blt d b = true
    · rw [if_pos hdb]
      exact h2
    · rw [if_neg hdb]
      exact EV.ble_trans (EV.ble_of_blt hca) h1
  · rw [if_neg hca]
    by_cases hdb : EV.blt d b = true
    · rw [if_pos hdb]
      exact EV.ble_trans (EV.ble_of_not_blt (by simpa using hca)) h2
    · rw [if_neg hdb]
      exact h1

theorem EV.blt_one_add (x : EV) : EV.blt (EV.fin 1 + x) (EV.fin 1) = false := by
  cases x <;> simp [EV.add_def, EV.add, EV.blt]

theorem mapLE_refl (f : NetMap) : mapLE f f := fun n => EV.ble_refl (f n)

theorem mapLE_trans {f g h : NetMap} (h1 : mapLE f g) (h2 : mapLE g h) : mapLE f h :=
  fun n => EV.ble_trans (h1 n) (h2 n)

theorem stLE_refl (s : CtrlState) : stLE s s := ⟨mapLE_refl _, mapLE_refl _⟩

theorem stLE_trans {s t u : CtrlState} (h1 : stLE s t) (h2 : stLE t u) : stLE s u :=
  ⟨mapLE_trans h1.1 h2.1, mapLE_trans h1.2 h2.2⟩

theorem writeMin_le (m : NetMap) (k : String) (v : EV) : mapLE (writeMin m k v).1 m := by
  intro n
  unfold writeMin
  split
  · unfold upd
    by_cases hn : n = k
    · subst hn
      simp only [if_pos rfl]
      exact EV.ble_of_blt (by assumption)
    · simp only [if_neg hn]
      exact EV.ble_refl _
  · exact EV.ble_refl _

theorem writeMin_ge {w m : NetMap} (hm : mapLE w m) {k : String} {v : EV}
    (hv : EV.ble (w k) v = true) : mapLE w (writeMin m k v).1 := by
  intro n
  unfold writeMin
  split
  · unfold upd
    by_cases hn : n = k
    · subst hn
      simp only [if_pos rfl]
      exact hv
    · simp only [if_neg hn]
      exact hm n
  · exact hm n

theorem writeMin_flag_false {m : NetMap} {k : String} {v : EV}
    (h : (writeMin m k v).2 = false) :
    (writeMin m k v).1 = m ∧ EV.blt v (m k) = false := by
  unfold writeMin at h ⊢
  by_cases hb : EV.blt v (m k) = true
  · rw [if_pos hb] at h
    exact absurd h (by simp)
  · rw [if_neg hb]
    exact ⟨rfl, by simpa using hb⟩

theorem writeMin_keeps_one {m : NetMap} {k p : String} {x : EV}
    (hp : m p = EV.fin 1) :
    (writeMin m k (EV.fin 1 + x)).1 p = EV.fin 1 := by
  unfold writeMin
  split
  · unfold upd
    by_cases hn : p = k
    · subst hn
      rw [hp] at *
      have := EV.blt_one_add x
      simp_all
    · simp only [if_neg hn]
      exact hp
  · exact hp

theorem foldl_min_map_mono {f g : NetMap} (hm : mapLE f g) (l : List String)
    {a b : EV} (hab : EV.ble a b = true) :
    EV.ble ((l.map f).foldl EV.min a) ((l.map g).foldl EV.min b) = true := by
  induction l generalizing a b with
  | nil => exact hab
  | cons i t ih =>
    simp only [List.map_cons, List.foldl_cons]
    exact ih (EV.min_mono hab (hm i))

theorem foldl_add_map_mono {f g : NetMap} (hm : mapLE f g) (l : List String)
    {a b : EV} (hab : EV.ble a b = true) :
    EV.ble ((l.map f).foldl (· + ·) a) ((l.map g).foldl (· + ·) b) = true := by
  induction l generalizing a b with
  | nil => exact hab
  | cons i t ih =>
    simp only [List.map_cons, List.foldl_cons]
    exact ih (EV.add_mono hab (hm i))

theorem pySum_map_mono {f g : NetMap} (hm : mapLE f g) (l : List String) :
    EV.ble (pySum (l.map f)) (pySum (l.map g)) = true :=
  foldl_add_map_mono hm l (EV.ble_refl _)

theorem ctrlCand_mono {f0 f1 h0 h1 : NetMap} (hm0 : mapLE f0 h0) (hm1 : mapLE f1 h1)
    (g : Gate) {n0 n1 : EV} (hc : ctrlCand h0 h1 g = some (n0, n1)) :
    ∃ m0 m1, ctrlCand f0 f1 g = some (m0, m1) ∧
      EV.ble m0 n0 = true ∧ EV.ble m1 n1 = true := by
  unfold ctrlCand at hc ⊢
  by_cases hg1 : pyIn "NAND" (pyUpper g.gtype) = true
  · rw [if_pos hg1] at hc ⊢
    cases hins : g.ins with
    | nil => rw [hins] at hc; exact absurd hc (by simp [pyMinL])
    | cons i t =>
      rw [hins] at hc
      simp only [List.map_cons, pyMinL, Option.some.injEq, Prod.mk.injEq] at hc
      obtain ⟨e0, e1⟩ := hc
      subst e0; subst e1
      refine ⟨_, _, rfl, ?_, ?_⟩
      · exact EV.add_mono (EV.ble_refl _) (foldl_min_map_mono hm0 t (hm0 i))
      · exact EV.add_mono (EV.ble_refl _) (pySum_map_mono hm1 (i :: t))
  · rw [if_neg hg1] at hc ⊢
    by_cases hg2 : pyIn "AND" (pyUpper g.gtype) = true
    · rw [if_pos hg2] at hc ⊢
      cases hins : g.ins with
      | nil => rw [hins] at hc; exact absurd hc (by simp [pyMinL])
      | cons i t =>
        rw [hins] at hc
        simp only [List.map_cons, pyMinL, Option.some.injEq, Prod.mk.injEq] at hc
        obtain ⟨e0, e1⟩ := hc
        subst e0; subst e1
        refine ⟨_, _, rfl, ?_, ?_⟩
        · exact EV.add_mono (EV.ble_refl _) (pySum_map_mono hm0 (i :: t))
        · exact EV.add_mono (EV.ble_refl _) (foldl_min_map_mono hm1 t (hm1 i))
    · rw [if_neg hg2] at hc ⊢
      by_cases hg3 : pyIn "NOR" (pyUpper g.gtype) = true
      · rw [if_pos hg3] at hc ⊢
        cases hins : g.ins with
        | nil => rw [hins] at hc; exact absurd hc (by simp [pyMinL])
        | cons i t =>
          rw [hins] at hc
          simp only [List.map_cons, pyMinL, Option.some.injEq, Prod.mk.injEq] at hc
          obtain ⟨e0, e1⟩ := hc
          subst e0; subst e1
          refine ⟨_, _, rfl, ?_, ?_⟩
          · exact EV.add_mono (EV.ble_refl _) (pySum_map_mono hm1 (i :: t))
          · exact EV.add_mono (EV.ble_refl _) (foldl_min_map_mono hm0 t (hm0 i))
      · rw [if_neg hg3] at hc ⊢
        by_cases hg4 : pyIn "OR" (pyUpper g.gtype) = true
        · rw [if_pos hg4] at hc ⊢
          cases hins : g.ins with
          | nil => rw [hins] at hc; exact absurd hc (by simp [pyMinL])
          | cons i t =>
            rw [hins] at hc
            simp only [List.map_cons, pyMinL, Option.some.injEq, Prod.mk.injEq] at hc
            obtain ⟨e0, e1⟩ := hc
            subst e0; subst e1
            refine ⟨_, _, rfl, ?_, ?_⟩
            · exact EV.add_mono (EV.ble_refl _) (foldl_min_map_mono hm0 t (hm0 i))
            · exact EV.add_mono (EV.ble_refl _) (pySum_map_mono hm1 (i :: t))
        · rw [if_neg hg4] at hc ⊢
          by_cases hg5 : pyIn "XOR" (pyUpper g.gtype) = true
          · rw [if_pos hg5] at hc ⊢
            match hins : g.ins with
            | [] => rw [hins] at hc; exact absurd hc (by simp)
            | [i] => rw [hins] at hc; exact absurd hc (by simp)
            | i :: j :: k :: t => rw [hins] at hc; exact absurd hc (by simp)
            | [i, j] =>
              rw [hins] at hc
              simp only [List.map_cons, List.map_nil, Option.some.injEq, Prod.mk.injEq] at hc
              obtain ⟨e0, e1⟩ := hc
              subst e0; subst e1
              refine ⟨_, _, rfl, ?_, ?_⟩
              · exact EV.add_mono (EV.ble_refl _)
                  (EV.min_mono (EV.add_mono (hm0 i) (hm1 j)) (EV.add_mono (hm1 i) (hm0 j)))
              · exact EV.add_mono (EV.ble_refl _)
                  (EV.min_mono (EV.add_mono (hm0 i) (hm0 j)) (EV.add_mono (hm1 i) (hm1 j)))
          · rw [if_neg hg5] at hc ⊢
            by_cases hg6 : (pyIn "INV" (pyUpper g.gtype) || pyIn "NOT" (pyUpper g.gtype)) = true
            · rw [if_pos hg6] at hc ⊢
              cases hins : g.ins with
              | nil => rw [hins] at hc; exact absurd hc (by simp)
              | cons i t =>
                rw [hins] at hc
                simp only [Option.some.injEq, Prod.mk.injEq] at hc
                obtain ⟨e0, e1⟩ := hc
                subst e0; subst e1
                exact ⟨_, _, rfl, EV.add_mono (EV.ble_refl _) (hm1 i),
                  EV.add_mono (EV.ble_refl _) (hm0 i)⟩
            · rw [if_neg hg6] at hc ⊢
              by_cases hg7 : pyIn "BUF" (pyUpper g.gtype) = true
              · rw [if_pos hg7] at hc ⊢
                cases hins : g.ins with
                | nil => rw [hins] at hc; exact absurd hc (by simp)
                | cons i t =>
                  rw [hins] at hc
                  simp only [Option.some.injEq, Prod.mk.injEq] at hc
                  obtain ⟨e0, e1⟩ := hc
                  subst e0; subst e1
                  exact ⟨_, _, rfl, EV.add_mono (EV.ble_refl _) (hm0 i),
                    EV.add_mono (EV.ble_refl _) (hm1 i)⟩
              · rw [if_neg hg7] at hc ⊢
                cases hins : g.ins with
                | nil => rw [hins] at hc; exact absurd hc (by simp)
                | cons i t =>
                  rw [hins] at hc
                  simp only [Option.some.injEq, Prod.mk.injEq] at hc
                  obtain ⟨e0, e1⟩ := hc
                  subst e0; subst e1
                  exact ⟨_, _, rfl, EV.add_mono (EV.ble_refl _) (hm1 i),
                    EV.add_mono (EV.ble_refl _) (hm0 i)⟩

theorem ctrlCand_shape {f0 f1 : NetMap} {g : Gate} {n0 n1 : EV}
    (hc : ctrlCand f0 f1 g = some (n0, n1)) :
    (∃ x, n0 = EV.fin 1 + x) ∧ ∃ y, n1 = EV.fin 1 + y := by
  unfold ctrlCand at hc
  repeat' split at hc
  all_goals
    first
    | (simp only [Option.some.injEq, Prod.mk.injEq] at hc
       obtain ⟨e0, e1⟩ := hc
       exact ⟨⟨_, e0.symm⟩, ⟨_, e1.symm⟩⟩)
    | exact absurd hc (by simp)

theorem ctrlRelaxGate_le (s : CtrlState) (g : Gate) : stLE (ctrlRelaxGate s g).1 s := by
  unfold ctrlRelaxGate
  cases hc : ctrlCand s.CC0 s.CC1 g with
  | none => exact stLE_refl s
  | some p =>
    cases p with
    | mk n0 n1 => exact ⟨writeMin_le _ _ _, writeMin_le _ _ _⟩

theorem ctrlRelaxGate_ge {gs : List Gate} {w : CtrlState} (hst : ctrlStable gs w)
    {s : CtrlState} (hws : stLE w s) {g : Gate} (hg : g ∈ gs) :
    stLE w (ctrlRelaxGate s g).1 := by
  unfold ctrlRelaxGate
  cases hc : ctrlCand s.CC0 s.CC1 g with
  | none => exact hws
  | some p =>
    cases p with
    | mk n0 n1 =>
      obtain ⟨m0, m1, hcw, hb0, hb1⟩ := ctrlCand_mono hws.1 hws.2 g hc
      obtain ⟨hs0, hs1⟩ := hst g hg m0 m1 hcw
      constructor
      · exact writeMin_ge hws.1 (EV.ble_trans (EV.ble_of_not_blt hs0) hb0)
      · exact writeMin_ge hws.2 (EV.ble_trans (EV.ble_of_not_blt hs1) hb1)

theorem ctrlRelaxGate_flag {s : CtrlState} {g : Gate}
    (h : (ctrlRelaxGate s g).2 = false) :
    (ctrlRelaxGate s g).1 = s ∧
      ∀ n0 n1, ctrlCand s.CC0 s.CC1 g = some (n0, n1) →
        EV.blt n0 (s.CC0 g.out) = false ∧ EV.blt n1 (s.CC1 g.out) = false := by
  cases hc : ctrlCand s.CC0 s.CC1 g with
  | none =>
    have hr : ctrlRelaxGate s g = (s, false) := by
      unfold ctrlRelaxGate
      rw [hc]
    rw [hr]
    exact ⟨rfl, fun n0 n1 he => absurd he (by simp)⟩
  | some p =>
    cases p with
    | mk n0 n1 =>
      have hr : ctrlRelaxGate s g =
          ({ CC0 := (writeMin s.CC0 g.out n0).1, CC1 := (writeMin s.CC1 g.out n1).1 },
            (writeMin s.CC0 g.out n0).2 || (writeMin s.CC1 g.out n1).2) := by
        unfold ctrlRelaxGate
        rw [hc]
      rw [hr] at h ⊢
      simp only [Bool.or_eq_false_iff] at h
      obtain ⟨hw0, hc0⟩ := writeMin_flag_false h.1
      obtain ⟨hw1, hc1⟩ := writeMin_flag_false h.2
      refine ⟨?_, ?_⟩
      · show ({ CC0 := _, CC1 := _ } : CtrlState) = s
        rw [hw0, hw1]
      · intro m0 m1 he
        simp only [Option.some.injEq, Prod.mk.injEq] at he
        obtain ⟨e0, e1⟩ := he
        subst e0; subst e1
        exact ⟨hc0, hc1⟩

theorem ctrlPassGo_le (l : List Gate) (s : CtrlState) (ch : Bool) :
    stLE (ctrlPassGo l s ch).1 s := by
  induction l generalizing s ch with
  | nil => exact stLE_refl s
  | cons g rest ih =>
    exact stLE_trans (ih (ctrlRelaxGate s g).1 _) (ctrlRelaxGate_le s g)

theorem ctrlPassGo_ge {gs : List Gate} {w : CtrlState} (hst : ctrlStable gs w)
    {l : List Gate} (hsub : ∀ g ∈ l, g ∈ gs) {s : CtrlState} (hws : stLE w s)
    (ch : Bool) : stLE w (ctrlPassGo l s ch).1 := by
  induction l generalizing s ch with
  | nil => exact hws
  | cons g rest ih =>
    exact ih (fun x hx => hsub x (List.mem_cons_of_mem g hx))
      (ctrlRelaxGate_ge hst hws (hsub g (List.mem_cons_self g rest))) _

theorem ctrlPassGo_flagMono {l : List Gate} {s : CtrlState} {ch : Bool}
    (h : (ctrlPassGo l s ch).2 = false) : ch = false := by
  induction l generalizing s ch with
  | nil => exact h
  | cons g rest ih =>
    simp only [ctrlPassGo] at h
    have := ih h
    simp only [Bool.or_eq_false_iff] at this
    exact this.1

theorem ctrlPassGo_false {l : List Gate} {s : CtrlState} {ch : Bool}
    (h : (ctrlPassGo l s ch).2 = false) :
    ch = false ∧ (ctrlPassGo l s ch).1 = s ∧
      ∀ g ∈ l, (ctrlRelaxGate s g).2 = false := by
  induction l generalizing s ch with
  | nil => exact ⟨h, rfl, by simp⟩
  | cons g rest ih =>
    simp only [ctrlPassGo] at h ⊢
    have hor : (ch || (ctrlRelaxGate s g).2) = false := ctrlPassGo_flagMono h
    simp only [Bool.or_eq_false_iff] at hor
    obtain ⟨hch, hflag⟩ := hor
    have hsame : (ctrlRelaxGate s g).1 = s := (ctrlRelaxGate_flag hflag).1
    rw [hsame] at h
    obtain ⟨-, hrest, hall⟩ := ih h
    rw [hsame]
    refine ⟨hch, hrest, ?_⟩
    intro x hx
    rcases List.mem_cons.mp hx with he | hm
    · subst he; exact hflag
    · exact hall x hm

theorem ctrlPass_fixed_stable {gs : List Gate} {s : CtrlState}
    (h : (ctrlPass gs s).2 = false) :
    (ctrlPass gs s).1 = s ∧ ctrlStable gs s := by
  obtain ⟨-, hsame, hall⟩ := ctrlPassGo_false h
  refine ⟨hsame, ?_⟩
  intro g hg n0 n1 hc
  exact ((ctrlRelaxGate_flag (hall g hg)).2 n0 n1 hc)

theorem ctrlLoop_le (fuel : Nat) (gs : List Gate) (s : CtrlState) :
    stLE (ctrlLoop fuel gs s) s := by
  induction fuel generalizing s with
  | zero => exact stLE_refl s
  | succ n ih =>
    simp only [ctrlLoop]
    split
    · exact stLE_trans (ih _) (ctrlPassGo_le gs s false)
    · exact ctrlPassGo_le gs s false

theorem ctrlLoop_ge {gs : List Gate} {w : CtrlState} (hst : ctrlStable gs w)
    {l : List Gate} (hsub : ∀ g ∈ l, g ∈ gs) {s : CtrlState} (hws : stLE w s)
    (fuel : Nat) : stLE w (ctrlLoop fuel l s) := by
  induction fuel generalizing s with
  | zero => exact hws
  | succ n ih =>
    simp only [ctrlLoop]
    split
    · exact ih (ctrlPassGo_ge hst hsub hws false)
    · exact ctrlPassGo_ge hst hsub hws false

theorem ctrl_fixed_point_unique {gsA gsB : List Gate}
    (hmem : ∀ g, g ∈ gsA ↔ g ∈ gsB) (s0 : CtrlState) {fA fB : Nat}
    (hfa : (ctrlPass gsA (ctrlLoop fA gsA s0)).2 = false)
    (hfb : (ctrlPass gsB (ctrlLoop fB gsB s0)).2 = false) :
    ∀ n, (ctrlLoop fA gsA s0).CC0 n = (ctrlLoop fB gsB s0).CC0 n ∧
      (ctrlLoop fA gsA s0).CC1 n = (ctrlLoop fB gsB s0).CC1 n := by
  have hstA : ctrlStable gsA (ctrlLoop fA gsA s0) := (ctrlPass_fixed_stable hfa).2
  have hstB : ctrlStable gsB (ctrlLoop fB gsB s0) := (ctrlPass_fixed_stable hfb).2
  have hstAB : ctrlStable gsB (ctrlLoop fA gsA s0) :=
    fun g hg => hstA g ((hmem g).mpr hg)
  have hstBA : ctrlStable gsA (ctrlLoop fB gsB s0) :=
    fun g hg => hstB g ((hmem g).mp hg)
  have hAB : stLE (ctrlLoop fA gsA s0) (ctrlLoop fB gsB s0) :=
    ctrlLoop_ge hstAB (fun g hg => hg) (ctrlLoop_le fA gsA s0) fB
  have hBA : stLE (ctrlLoop fB gsB s0) (ctrlLoop fA gsA s0) :=
    ctrlLoop_ge hstBA (fun g hg => hg) (ctrlLoop_le fB gsB s0) fA
  intro n
  exact ⟨EV.ble_antisymm (hAB.1 n) (hBA.1 n), EV.ble_antisymm (hAB.2 n) (hBA.2 n)⟩

theorem obsCands_bound {cc0 cc1 w co : NetMap} {gs : List Gate}
    (hst : obsStable cc0 cc1 gs w) {g : Gate} (hg : g ∈ gs) (hm : mapLE w co) :
    ∀ p ∈ obsCands cc0 cc1 co g, EV.ble (w p.1) p.2 = true := by
  intro p hp
  have hout : EV.ble (w g.out) (co g.out) = true := hm g.out
  have hstg := hst g hg
  unfold obsCands at hp hstg
  cases hins : g.ins with
  | nil =>
    rw [hins] at hp
    exact absurd hp (by simp)
  | cons i1 t =>
    cases ht : t with
    | nil =>
      rw [hins, ht] at hp hstg
      simp only [List.mem_singleton] at hp
      subst hp
      have hs := hstg _ (List.mem_singleton_self _)
      exact EV.ble_trans (EV.ble_of_not_blt hs)
        (EV.add_mono hout (EV.ble_refl _))
    | cons i2 t2 =>
      rw [hins, ht] at hp hstg
      dsimp only at hp hstg
      by_cases h1 : (pyIn "AND" (pyUpper g.gtype) || pyIn "NAND" (pyUpper g.gtype)) = true
      · rw [if_pos h1] at hp hstg
        rcases List.mem_cons.mp hp with he | hp2
        · subst he
          have hs := hstg _ (List.mem_cons_self _ _)
          exact EV.ble_trans (EV.ble_of_not_blt hs)
            (EV.add_mono (EV.add_mono hout (EV.ble_refl _)) (EV.ble_refl _))
        · simp only [List.mem_singleton] at hp2
          subst hp2
          have hs := hstg _ (List.mem_cons_of_mem _ (List.mem_singleton_self _))
          exact EV.ble_trans (EV.ble_of_not_blt hs)
            (EV.add_mono (EV.add_mono hout (EV.ble_refl _)) (EV.ble_refl _))
      · rw [if_neg h1] at hp hstg
        by_cases h2 : (pyIn "OR" (pyUpper g.gtype) || pyIn "NOR" (pyUpper g.gtype)) = true
        · rw [if_pos h2] at hp hstg
          rcases List.mem_cons.mp hp with he | hp2
          · subst he
            have hs := hstg _ (List.mem_cons_self _ _)
            exact EV.ble_trans (EV.ble_of_not_blt hs)
              (EV.add_mono (EV.add_mono hout (EV.ble_refl _)) (EV.ble_refl _))
          · simp only [List.mem_singleton] at hp2
            subst hp2
            have hs := hstg _ (List.mem_cons_of_mem _ (List.mem_singleton_self _))
            exact EV.ble_trans (EV.ble_of_not_blt hs)
              (EV.add_mono (EV.add_mono hout (EV.ble_refl _)) (EV.ble_refl _))
        · rw [if_neg h2] at hp hstg
          by_cases h3 : (pyIn "XOR" (pyUpper g.gtype) || pyIn "XNOR" (pyUpper g.gtype)) = true
          · rw [if_pos h3] at hp hstg
            rcases List.mem_cons.mp hp with he | hp2
            · subst he
              have hs := hstg _ (List.mem_cons_self _ _)
              exact EV.ble_trans (EV.ble_of_not_blt hs)
                (EV.add_mono (EV.add_mono hout (EV.ble_refl _)) (EV.ble_refl _))
            · simp only [List.mem_singleton] at hp2
              subst hp2
              have hs := hstg _ (List.mem_cons_of_mem _ (List.mem_singleton_self _))
              exact EV.ble_trans (EV.ble_of_not_blt hs)
                (EV.add_mono (EV.add_mono hout (EV.ble_refl _)) (EV.ble_refl _))
          · rw [if_neg h3] at hp hstg
            rcases List.mem_cons.mp hp with he | hp2
            · subst he
              have hs := hstg _ (List.mem_cons_self _ _)
              exact EV.ble_trans (EV.ble_of_not_blt hs)
                (EV.add_mono hout (EV.ble_refl _))
            · simp only [List.mem_singleton] at hp2
              subst hp2
              have hs := hstg _ (List.mem_cons_of_mem _ (List.mem_singleton_self _))
              exact EV.ble_trans (EV.ble_of_not_blt hs)
                (EV.add_mono hout (EV.ble_refl _))

theorem applyCands_le (co : NetMap) (ch : Bool) (cs : List (String × EV)) :
    mapLE (applyCands co ch cs).1 co := by
  induction cs generalizing co ch with
  | nil => exact mapLE_refl co
  | cons p rest ih =>
    cases p with
    | mk i v =>
      exact mapLE_trans (ih (writeMin co i v).1 _) (writeMin_le co i v)

theorem applyCands_ge {w co : NetMap} (hw : mapLE w co) {cs : List (String × EV)}
    (hv : ∀ p ∈ cs, EV.ble (w p.1) p.2 = true) (ch : Bool) :
    mapLE w (applyCands co ch cs).1 := by
  induction cs generalizing co ch with
  | nil => exact hw
  | cons p rest ih =>
    cases p with
    | mk i v =>
      exact ih (writeMin_ge hw (hv (i, v) (List.mem_cons_self _ _)))
        (fun q hq => hv q (List.mem_cons_of_mem _ hq)) _

theorem applyCands_flagMono {cs : List (String × EV)} {co : NetMap} {ch : Bool}
    (h : (applyCands co ch cs).2 = false) : ch = false := by
  induction cs generalizing co ch with
  | nil => exact h
  | cons p rest ih =>
    cases p with
    | mk i v =>
      simp only [applyCands] at h
      have := ih h
      simp only [Bool.or_eq_false_iff] at this
      exact this.1

theorem applyCands_false {cs : List (String × EV)} {co : NetMap} {ch : Bool}
    (h : (applyCands co ch cs).2 = false) :
    ch = false ∧ (applyCands co ch cs).1 = co ∧
      ∀ p ∈ cs, EV.blt p.2 (co p.1) = false := by
  induction cs generalizing co ch with
  | nil => exact ⟨h, rfl, by simp⟩
  | cons p rest ih =>
    cases p with
    | mk i v =>
      simp only [applyCands] at h ⊢
      have hor : (ch || (writeMin co i v).2) = false := applyCands_flagMono h
      simp only [Bool.or_eq_false_iff] at hor
      obtain ⟨hch, hflag⟩ := hor
      obtain ⟨hsame, hblt⟩ := writeMin_flag_false hflag
      rw [hsame] at h
      obtain ⟨-, hrest, hall⟩ := ih h
      rw [hsame]
      refine ⟨hch, hrest, ?_⟩
      intro q hq
      rcases List.mem_cons.mp hq with he | hm
      · subst he; exact hblt
      · exact hall q hm

theorem obsRelaxGate_le (cc0 cc1 co : NetMap) (g : Gate) :
    mapLE (obsRelaxGate cc0 cc1 co g).1 co :=
  applyCands_le co false (obsCands cc0 cc1 co g)

theorem obsRelaxGate_ge {cc0 cc1 w : NetMap} {gs : List Gate}
    (hst : obsStable cc0 cc1 gs w) {co : NetMap} (hw : mapLE w co)
    {g : Gate} (hg : g ∈ gs) : mapLE w (obsRelaxGate cc0 cc1 co g).1 :=
  applyCands_ge hw (obsCands_bound hst hg hw) false

theorem obsRelaxGate_flag {cc0 cc1 co : NetMap} {g : Gate}
    (h : (obsRelaxGate cc0 cc1 co g).2 = false) :
    (obsRelaxGate cc0 cc1 co g).1 = co ∧
      ∀ p ∈ obsCands cc0 cc1 co g, EV.blt p.2 (co p.1) = false := by
  obtain ⟨-, hsame, hall⟩ := applyCands_false h
  exact ⟨hsame, hall⟩

theorem obsPassGo_le (cc0 cc1 : NetMap) (l : List Gate) (co : NetMap) (ch : Bool) :
    mapLE (obsPassGo cc0 cc1 l co ch).1 co := by
  induction l generalizing co ch with
  | nil => exact mapLE_refl co
  | cons g rest ih =>
    exact mapLE_trans (ih (obsRelaxGate cc0 cc1 co g).1 _) (obsRelaxGate_le cc0 cc1 co g)

theorem obsPassGo_ge {cc0 cc1 w : NetMap} {gs : List Gate}
    (hst : obsStable cc0 cc1 gs w) {l : List Gate} (hsub : ∀ g ∈ l, g ∈ gs)
    {co : NetMap} (hw : mapLE w co) (ch : Bool) :
    mapLE w (obsPassGo cc0 cc1 l co ch).1 := by
  induction l generalizing co ch with
  | nil => exact hw
  | cons g rest ih =>
    exact ih (fun x hx => hsub x (List.mem_cons_of_mem g hx))
      (obsRelaxGate_ge hst hw (hsub g (List.mem_cons_self g rest))) _

theorem obsPassGo_flagMono {cc0 cc1 : NetMap} {l : List Gate} {co : NetMap} {ch : Bool}
    (h : (obsPassGo cc0 cc1 l co ch).2 = false) : ch = false := by
  induction l generalizing co ch with
  | nil => exact h
  | cons g rest ih =>
    simp only [obsPassGo] at h
    have := ih h
    simp only [Bool.or_eq_false_iff] at this
    exact this.1

theorem obsPassGo_false {cc0 cc1 : NetMap} {l : List Gate} {co : NetMap} {ch : Bool}
    (h : (obsPassGo cc0 cc1 l co ch).2 = false) :
    ch = false ∧ (obsPassGo cc0 cc1 l co ch).1 = co ∧
      ∀ g ∈ l, (obsRelaxGate cc0 cc1 co g).2 = false := by
  induction l generalizing co ch with
  | nil => exact ⟨h, rfl, by simp⟩
  | cons g rest ih =>
    simp only [obsPassGo] at h ⊢
    have hor : (ch || (obsRelaxGate cc0 cc1 co g).2) = false := obsPassGo_flagMono h
    simp only [Bool.or_eq_false_iff] at hor
    obtain ⟨hch, hflag⟩ := hor
    have hsame : (obsRelaxGate cc0 cc1 co g).1 = co := (obsRelaxGate_flag hflag).1
    rw [hsame] at h
    obtain ⟨-, hrest, hall⟩ := ih h
    rw [hsame]
    refine ⟨hch, hrest, ?_⟩
    intro x hx
    rcases List.mem_cons.mp hx with he | hm
    · subst he; exact hflag
    · exact hall x hm

theorem obsPass_fixed_stable {cc0 cc1 : NetMap} {gs : List Gate} {co : NetMap}
    (h : (obsPass cc0 cc1 gs co).2 = false) :
    (obsPass cc0 cc1 gs co).1 = co ∧ obsStable cc0 cc1 gs co := by
  obtain ⟨-, hsame, hall⟩ := obsPassGo_false h
  exact ⟨hsame, fun g hg => (obsRelaxGate_flag (hall g hg)).2⟩

theorem obsLoop_le (cc0 cc1 : NetMap) (fuel : Nat) (gs : List Gate) (co : NetMap) :
    mapLE (obsLoop cc0 cc1 fuel gs co) co := by
  induction fuel generalizing co with
  | zero => exact mapLE_refl co
  | succ n ih =>
    simp only [obsLoop]
    split
    · exact mapLE_trans (ih _) (obsPassGo_le cc0 cc1 gs co false)
    · exact obsPassGo_le cc0 cc1 gs co false

theorem obsLoop_ge {cc0 cc1 w : NetMap} {gs : List Gate}
    (hst : obsStable cc0 cc1 gs w) {l : List Gate} (hsub : ∀ g ∈ l, g ∈ gs)
    {co : NetMap} (hw : mapLE w co) (fuel : Nat) :
    mapLE w (obsLoop cc0 cc1 fuel l co) := by
  induction fuel generalizing co with
  | zero => exact hw
  | succ n ih =>
    simp only [obsLoop]
    split
    · exact ih (obsPassGo_ge hst hsub hw false)
    · exact obsPassGo_ge hst hsub hw false

theorem obs_fixed_point_unique {cc0 cc1 : NetMap} {gsA gsB : List Gate}
    (hmem : ∀ g, g ∈ gsA ↔ g ∈ gsB) (co0 : NetMap) {fA fB : Nat}
    (hfa : (obsPass cc0 cc1 gsA (obsLoop cc0 cc1 fA gsA co0)).2 = false)
    (hfb : (obsPass cc0 cc1 gsB (obsLoop cc0 cc1 fB gsB co0)).2 = false) :
    ∀ n, obsLoop cc0 cc1 fA gsA co0 n = obsLoop cc0 cc1 fB gsB co0 n := by
  have hstA : obsStable cc0 cc1 gsA (obsLoop cc0 cc1 fA gsA co0) :=
    (obsPass_fixed_stable hfa).2
  have hstB : obsStable cc0 cc1 gsB (obsLoop cc0 cc1 fB gsB co0) :=
    (obsPass_fixed_stable hfb).2
  have hstAB : obsStable cc0 cc1 gsB (obsLoop cc0 cc1 fA gsA co0) :=
    fun g hg => hstA g ((hmem g).mpr hg)
  have hstBA : obsStable cc0 cc1 gsA (obsLoop cc0 cc1 fB gsB co0) :=
    fun g hg => hstB g ((hmem g).mp hg)
  have hAB : mapLE (obsLoop cc0 cc1 fA gsA co0) (obsLoop cc0 cc1 fB gsB co0) :=
    obsLoop_ge hstAB (fun g hg => hg) (obsLoop_le cc0 cc1 fA gsA co0) fB
  have hBA : mapLE (obsLoop cc0 cc1 fB gsB co0) (obsLoop cc0 cc1 fA gsA co0) :=
    obsLoop_ge hstBA (fun g hg => hg) (obsLoop_le cc0 cc1 fB gsB co0) fA
  intro n
  exact EV.ble_antisymm (hAB n) (hBA n)

theorem pstep_rel {s t : PState} (l : String) (hsec : s.sec = t.sec)
    (hin : s.inputs = t.inputs) (hout : s.outputs = t.outputs)
    (hg : s.gates = t.gates) :
    (pstep s l).sec = (pstep t l).sec ∧ (pstep s l).inputs = (pstep t l).inputs ∧
      (pstep s l).outputs = (pstep t l).outputs ∧
      (pstep s l).gates = (pstep t l).gates ∧
      (pstep s l).warns.length + t.warns.length =
        (pstep t l).warns.length + s.warns.length := by
  unfold pstep
  by_cases hh : pyStarts l "#" = true
  · rw [if_pos hh, if_pos hh]
    by_cases h1 : pyIn "Primary Inputs" l = true
    · simp [h1, hin, hout, hg]
      omega
    · rw [if_neg h1, if_neg h1]
      by_cases h2 : pyIn "Primary Outputs" l = true
      · simp [h2, hin, hout, hg]
        omega
      · rw [if_neg h2, if_neg h2]
        by_cases h3 : pyIn "Complete Paths" l = true
        · simp [h3, hin, hout, hg]
          omega
        · simp [h3, hin, hout, hg]
          omega
  · rw [if_neg hh, if_neg hh, hsec]
    cases ht : t.sec with
    | none =>
      simp [hsec, hin, hout, hg]
      omega
    | some sc =>
      cases sc with
      | input =>
        simp [hin, hout, hg]
        omega
      | output =>
        simp [hin, hout, hg]
        omega
      | gates =>
        cases hm : gateMatch l with
        | none =>
          simp [hin, hout, hg]
          omega
        | some trip =>
          cases trip with
          | mk gt rest =>
            cases rest with
            | mk outsRaw insRaw =>
              simp [hin, hout, hg]
              omega

theorem runP_rel (ls : List String) {s t : PState} (hsec : s.sec = t.sec)
    (hin : s.inputs = t.inputs) (hout : s.outputs = t.outputs)
    (hg : s.gates = t.gates) :
    (runP s ls).sec = (runP t ls).sec ∧ (runP s ls).inputs = (runP t ls).inputs ∧
      (runP s ls).outputs = (runP t ls).outputs ∧
      (runP s ls).gates = (runP t ls).gates ∧
      (runP s ls).warns.length + t.warns.length =
        (runP t ls).warns.length + s.warns.length := by
  induction ls generalizing s t with
  | nil => exact ⟨hsec, hin, hout, hg, by simp only [runP, List.foldl_nil]; omega⟩
  | cons l rest ih =>
    obtain ⟨a1, a2, a3, a4, a5⟩ := pstep_rel l hsec hin hout hg
    obtain ⟨b1, b2, b3, b4, b5⟩ := ih a1 a2 a3 a4
    exact ⟨b1, b2, b3, b4, by
      show (runP (pstep s l) rest).warns.length + t.warns.length =
        (runP (pstep t l) rest).warns.length + s.warns.length
      omega⟩

theorem pstep_warns (s : PState) (l : String) :
    ∃ d, (pstep s l).warns = s.warns ++ d := by
  unfold pstep
  repeat' split
  all_goals first
    | (refine ⟨[], ?_⟩; simp; done)
    | (refine ⟨[(s.lineno, l)], ?_⟩; simp; done)

theorem runP_warns_extend (ls : List String) (s : PState) :
    ∃ w, (runP s ls).warns = s.warns ++ w := by
  induction ls generalizing s with
  | nil => exact ⟨[], by simp [runP]⟩
  | cons l rest ih =>
    obtain ⟨d, hd⟩ := pstep_warns s l
    obtain ⟨w, hw⟩ := ih (pstep s l)
    refine ⟨d ++ w, ?_⟩
    show (runP (pstep s l) rest).warns = s.warns ++ (d ++ w)
    rw [hw, hd, List.append_assoc]

theorem pstep_bad {s : PState} {bad : String} (hsec : s.sec = some Sec.gates)
    (hhash : pyStarts bad "#" = false) (hmatch : gateMatch bad = none) :
    pstep s bad = { s with lineno := s.lineno + 1,
                           warns := s.warns ++ [(s.lineno, bad)] } := by
  unfold pstep
  rw [if_neg (by simp [hhash]), hsec, hmatch]

theorem ctrlRelaxGate_keeps_one {s : CtrlState} {g : Gate} {p : String}
    (h0 : s.CC0 p = EV.fin 1) (h1 : s.CC1 p = EV.fin 1) :
    (ctrlRelaxGate s g).1.CC0 p = EV.fin 1 ∧
      (ctrlRelaxGate s g).1.CC1 p = EV.fin 1 := by
  cases hc : ctrlCand s.CC0 s.CC1 g with
  | none =>
    have hr : ctrlRelaxGate s g = (s, false) := by
      unfold ctrlRelaxGate
      rw [hc]
    rw [hr]
    exact ⟨h0, h1⟩
  | some q =>
    cases q with
    | mk n0 n1 =>
      obtain ⟨⟨x, hx⟩, ⟨y, hy⟩⟩ := ctrlCand_shape hc
      subst hx; subst hy
      have hr : ctrlRelaxGate s g =
          ({ CC0 := (writeMin s.CC0 g.out (EV.fin 1 + x)).1,
             CC1 := (writeMin s.CC1 g.out (EV.fin 1 + y)).1 },
            (writeMin s.CC0 g.out (EV.fin 1 + x)).2 ||
              (writeMin s.CC1 g.out (EV.fin 1 + y)).2) := by
        unfold ctrlRelaxGate
        rw [hc]
      rw [hr]
      exact ⟨writeMin_keeps_one h0, writeMin_keeps_one h1⟩

theorem ctrlPassGo_keeps_one {l : List Gate} {s : CtrlState} {ch : Bool} {p : String}
    (h0 : s.CC0 p = EV.fin 1) (h1 : s.CC1 p = EV.fin 1) :
    (ctrlPassGo l s ch).1.CC0 p = EV.fin 1 ∧
      (ctrlPassGo l s ch).1.CC1 p = EV.fin 1 := by
  induction l generalizing s ch with
  | nil => exact ⟨h0, h1⟩
  | cons g rest ih =>
    obtain ⟨k0, k1⟩ := ctrlRelaxGate_keeps_one (g := g) h0 h1
    exact ih k0 k1

theorem ctrlLoop_keeps_one {fuel : Nat} {l : List Gate} {s : CtrlState} {p : String}
    (h0 : s.CC0 p = EV.fin 1) (h1 : s.CC1 p = EV.fin 1) :
    (ctrlLoop fuel l s).CC0 p = EV.fin 1 ∧
      (ctrlLoop fuel l s).CC1 p = EV.fin 1 := by
  induction fuel generalizing s with
  | zero => exact ⟨h0, h1⟩
  | succ n ih =>
    simp only [ctrlLoop]
    split
    · exact ih (ctrlPassGo_keeps_one h0 h1).1 (ctrlPassGo_keeps_one h0 h1).2
    · exact ctrlPassGo_keeps_one h0 h1

/-- Claim C1: the specification says a two-input XOR/XNOR gate's input
observability candidate is CO(o) + min(CC0(i2)+CC1(i2), CC0(i1)+CC1(i1)) + 1.
On the code this fails: any kind containing "XOR" or "XNOR" also contains
"OR", so the earlier OR/NOR substring test captures it and the OR rule
CO(o) + CC0(other) + 1 is applied; the XOR/XNOR branch is unreachable.
With CO(C)=1 and every controllability equal to 1, relaxing
XOR out(C) in(A B) stores CO(A)=3 (and likewise for XNOR), while the
specified formula would give 4. -/
theorem c1_xor_observability_uses_or_rule :
    (obsRelaxGate (fun _ => EV.fin 1) (fun _ => EV.fin 1) (initMap ["C"])
        { gtype := "XOR", out := "C", ins := ["A", "B"] }).1 "A" = EV.fin 3 ∧
    (obsRelaxGate (fun _ => EV.fin 1) (fun _ => EV.fin 1) (initMap ["C"])
        { gtype := "XNOR", out := "C", ins := ["A", "B"] }).1 "A" = EV.fin 3 ∧
    specXorObsCand (EV.fin 1) (EV.fin 1) (EV.fin 1) (EV.fin 1) (EV.fin 1) =
      EV.fin 4 := by
  decide

/-- Claim C2: the specification's XOR controllability row says CC0 cand =
1 + min(CC0a+CC1b, CC1a+CC0b) and CC1 cand = 1 + min(CC0a+CC0b, CC1a+CC1b).
On the code this fails: "OR" is a substring of "XOR", so the OR branch fires
first and computes 1 + min(CC0 of ins) and 1 + sum(CC1 of ins).  With all
input controllabilities 1 the code produces (2, 3) where the specified
formulas give (3, 3). -/
theorem c2_xor_controllability_uses_or_rule :
    ctrlCand (initMap ["A", "B"]) (initMap ["A", "B"])
        { gtype := "XOR", out := "C", ins := ["A", "B"] } =
      some (EV.fin 2, EV.fin 3) ∧
    specXorCtrlCand (EV.fin 1) (EV.fin 1) (EV.fin 1) (EV.fin 1) =
      (EV.fin 3, EV.fin 3) := by
  decide

/-- Claim C3: for the netlist AND out(C) in(A B) with primary inputs A, B
and primary output C, the finalized metrics are CC0(C)=3, CC1(C)=2,
CO(A)=3, CO(B)=3; the final two conjuncts check that both relaxations have
genuinely reached their fixed points, so the fuelled loops coincide with
the source's while-loops. -/
theorem c3_scenario2_metrics :
    scenario2Ctrl.CC0 "C" = EV.fin 3 ∧ scenario2Ctrl.CC1 "C" = EV.fin 2 ∧
    scenario2Obs "A" = EV.fin 3 ∧ scenario2Obs "B" = EV.fin 3 ∧
    (ctrlPass scenario2Gates scenario2Ctrl).2 = false ∧
    (obsPass scenario2Ctrl.CC0 scenario2Ctrl.CC1 scenario2Gates scenario2Obs).2 =
      false := by
  decide

/-- Claim C4: every primary input keeps CC0 = CC1 = 1: it holds at
initialization, it is preserved by every single controllability pass from
any state that satisfies it, and it holds after the loop for every fuel.
No gate update can break it because every candidate has the form 1 + x and
a write needs the candidate to be strictly below the stored 1. -/
theorem c4_primary_input_invariant (nets inputs : List String)
    (gates : List Gate) (p : String) (hp : p ∈ inputs) :
    (ctrlInitState inputs).CC0 p = EV.fin 1 ∧
    (ctrlInitState inputs).CC1 p = EV.fin 1 ∧
    (∀ s : CtrlState, s.CC0 p = EV.fin 1 → s.CC1 p = EV.fin 1 →
      (ctrlPass gates s).1.CC0 p = EV.fin 1 ∧
        (ctrlPass gates s).1.CC1 p = EV.fin 1) ∧
    ∀ fuel, (build_controllability nets inputs gates fuel).CC0 p = EV.fin 1 ∧
      (build_controllability nets inputs gates fuel).CC1 p = EV.fin 1 := by
  have hinit : (ctrlInitState inputs).CC0 p = EV.fin 1 ∧
      (ctrlInitState inputs).CC1 p = EV.fin 1 := by
    constructor <;> simp [ctrlInitState, initMap, hp]
  refine ⟨hinit.1, hinit.2, ?_, ?_⟩
  · intro s h0 h1
    exact ctrlPassGo_keeps_one h0 h1
  · intro fuel
    exact ctrlLoop_keeps_one hinit.1 hinit.2

theorem c4_witness :
    (build_controllability ["A", "X"] ["A"]
        [{ gtype := "AND", out := "X", ins := ["A", "A"] }] 3).CC0 "A" =
      EV.fin 1 :=
  ((c4_primary_input_invariant ["A", "X"] ["A"]
      [{ gtype := "AND", out := "X", ins := ["A", "A"] }] "A"
      (by decide)).2.2.2 3).1

/-- Claim C5: no stored metric value ever increases across relaxation
passes of either engine: one controllability pass takes every CC0 and CC1
entry pointwise downward (or leaves it), and one observability pass does
the same for CO, because a candidate is written only when strictly smaller
than the stored value. -/
theorem c5_metrics_never_increase :
    (∀ (gates : List Gate) (s : CtrlState) (n : String),
        EV.ble ((ctrlPass gates s).1.CC0 n) (s.CC0 n) = true ∧
          EV.ble ((ctrlPass gates s).1.CC1 n) (s.CC1 n) = true) ∧
    ∀ (cc0 cc1 : NetMap) (gates : List Gate) (co : NetMap) (n : String),
        EV.ble ((obsPass cc0 cc1 gates co).1 n) (co n) = true :=
  ⟨fun gates s n =>
    ⟨(ctrlPassGo_le gates s false).1 n, (ctrlPassGo_le gates s false).2 n⟩,
   fun cc0 cc1 gates co n => obsPassGo_le cc0 cc1 gates co false n⟩

/-- Claim C6: the finalized fixed points do not depend on the order of the
gate list.  For any permutation of the gates, whenever both runs of the
controllability (respectively observability) loop have converged — one
further pass changes nothing, which on an acyclic netlist is guaranteed for
sufficient fuel — the two final maps agree pointwise.  The proof shows a
converged state is the greatest stable state below the initial map, and
stability only depends on gate membership. -/
theorem c6_order_independent (nets inputs outputs : List String)
    (fan1 fan2 : List (String × List String)) (gs gs' : List Gate)
    (hperm : List.Perm gs gs') (cc0 cc1 : NetMap) (fA fB fC fD : Nat)
    (hca : (ctrlPass gs (build_controllability nets inputs gs fA)).2 = false)
    (hcb : (ctrlPass gs' (build_controllability nets inputs gs' fB)).2 = false)
    (hoa : (obsPass cc0 cc1 gs
        (build_observability nets outputs fan1 cc0 cc1 gs fC)).2 = false)
    (hob : (obsPass cc0 cc1 gs'
        (build_observability nets outputs fan2 cc0 cc1 gs' fD)).2 = false) :
    (∀ n, (build_controllability nets inputs gs fA).CC0 n =
        (build_controllability nets inputs gs' fB).CC0 n ∧
      (build_controllability nets inputs gs fA).CC1 n =
        (build_controllability nets inputs gs' fB).CC1 n) ∧
    ∀ n, build_observability nets outputs fan1 cc0 cc1 gs fC n =
      build_observability nets outputs fan2 cc0 cc1 gs' fD n := by
  constructor
  · exact ctrl_fixed_point_unique (fun g => hperm.mem_iff)
      (ctrlInitState inputs) hca hcb
  · exact obs_fixed_point_unique (fun g => hperm.mem_iff)
      (initMap outputs) hoa hob

/-- Witness gate for the C6 instance: the AND driving net C. -/
def cW1 : Gate := { gtype := "AND", out := "C", ins := ["A", "B"] }

/-- Witness gate for the C6 instance: the inverter driving net D. -/
def cW2 : Gate := { gtype := "INV", out := "D", ins := ["C"] }

theorem c6_witness :
    ((∀ n, (build_controllability ["A", "B", "C", "D"] ["A", "B"] [cW1, cW2] 5).CC0 n =
        (build_controllability ["A", "B", "C", "D"] ["A", "B"] [cW2, cW1] 5).CC0 n ∧
      (build_controllability ["A", "B", "C", "D"] ["A", "B"] [cW1, cW2] 5).CC1 n =
        (build_controllability ["A", "B", "C", "D"] ["A", "B"] [cW2, cW1] 5).CC1 n) ∧
    ∀ n, build_observability ["A", "B", "C", "D"] ["D"] [] (fun _ => EV.fin 1)
        (fun _ => EV.fin 1) [cW1, cW2] 5 n =
      build_observability ["A", "B", "C", "D"] ["D"] [] (fun _ => EV.fin 1)
        (fun _ => EV.fin 1) [cW2, cW1] 5 n) :=
  c6_order_independent ["A", "B", "C", "D"] ["A", "B"] ["D"] [] [] [cW1, cW2]
    [cW2, cW1] (List.Perm.swap cW2 cW1 []) (fun _ => EV.fin 1) (fun _ => EV.fin 1)
    5 5 5 5 (by decide) (by decide) (by decide) (by decide)

/-- Claim C7: the specification says A[3:0] expands to four scalar nets
A[3], A[2], A[1], A[0] and A[0:3] to the ascending four.  The code computes
range(msb, lsb - step, step), whose stop bound lands two short of the
specified inclusive endpoint, so both expansions drop their last two
elements: A[3:0] gives only [A[3], A[2]] and A[0:3] only [A[0], A[1]]. -/
theorem c7_expand_vector_truncates :
    expand_vector "A[3:0]" = ["A[3]", "A[2]"] ∧
    expand_vector "A[0:3]" = ["A[0]", "A[1]"] ∧
    expand_vector "A[2:2]" = [] := by
  decide

/-- Claim C8: a line in the gate section that fails the gate regex is not
fatal: the parse result (inputs, outputs, fanouts, gate records) of the
whole line sequence equals the result with the malformed line removed, the
run emits exactly one extra diagnostic, and that diagnostic carries the
malformed line with its line number. -/
theorem c8_malformed_gate_line_skipped (pre post : List String) (bad : String)
    (hsec : (runP initPState pre).sec = some Sec.gates)
    (hhash : pyStarts bad "#" = false) (hmatch : gateMatch bad = none) :
    parse_sections (pre ++ bad :: post) = parse_sections (pre ++ post) ∧
    (runP initPState (pre ++ bad :: post)).warns.length =
      (runP initPState (pre ++ post)).warns.length + 1 ∧
    ((runP initPState pre).lineno, bad) ∈
      (runP initPState (pre ++ bad :: post)).warns := by
  have hsplit1 : runP initPState (pre ++ bad :: post) =
      runP (pstep (runP initPState pre) bad) post := by
    unfold runP
    rw [List.foldl_append]
    rfl
  have hsplit2 : runP initPState (pre ++ post) =
      runP (runP initPState pre) post := by
    unfold runP
    rw [List.foldl_append]
  have hbad := pstep_bad hsec hhash hmatch
  have hb1 : (pstep (runP initPState pre) bad).sec = (runP initPState pre).sec := by
    rw [hbad]
  have hb2 : (pstep (runP initPState pre) bad).inputs =
      (runP initPState pre).inputs := by
    rw [hbad]
  have hb3 : (pstep (runP initPState pre) bad).outputs =
      (runP initPState pre).outputs := by
    rw [hbad]
  have hb4 : (pstep (runP initPState pre) bad).gates =
      (runP initPState pre).gates := by
    rw [hbad]
  have hb5 : (pstep (runP initPState pre) bad).warns =
      (runP initPState pre).warns ++ [((runP initPState pre).lineno, bad)] := by
    rw [hbad]
  obtain ⟨r1, r2, r3, r4, r5⟩ := runP_rel post hb1 hb2 hb3 hb4
  refine ⟨?_, ?_, ?_⟩
  · unfold parse_sections
    dsimp only
    rw [hsplit1, hsplit2, r2, r3, r4]
  · rw [hsplit1, hsplit2]
    have hlen : (pstep (runP initPState pre) bad).warns.length =
        (runP initPState pre).warns.length + 1 := by
      rw [hb5]
      simp
    omega
  · rw [hsplit1]
    obtain ⟨w, hw⟩ := runP_warns_extend post (pstep (runP initPState pre) bad)
    rw [hw, hb5]
    simp

theorem c8_witness :
    parse_sections (["# Complete Paths"] ++ "AND out(C" :: ["OR out(D) in(A B)"]) =
      parse_sections (["# Complete Paths"] ++ ["OR out(D) in(A B)"]) ∧
    (runP initPState (["# Complete Paths"] ++ "AND out(C" ::
        ["OR out(D) in(A B)"])).warns.length =
      (runP initPState (["# Complete Paths"] ++ ["OR out(D) in(A B)"])).warns.length + 1 ∧
    ((runP initPState ["# Complete Paths"]).lineno, "AND out(C") ∈
      (runP initPState (["# Complete Paths"] ++ "AND out(C" ::
        ["OR out(D) in(A B)"])).warns :=
  c8_malformed_gate_line_skipped ["# Complete Paths"] ["OR out(D) in(A B)"]
    "AND out(C" (by decide) (by decide) (by decide)

/-- Claim C9: the specification says a gate whose input count misses its
classification's arity is skipped, giving an XOR gate without exactly two
inputs as an example.  On the code the example fails: a kind containing
"XOR" is classified by the OR substring test, whose only arity requirement
is a non-empty input list, so XOR out(X) in(A) is relaxed, a candidate
(2, 2) is computed, and the stored CC0(X) drops from infinity to 2. -/
theorem c9_xor_arity_mismatch_still_relaxed :
    ctrlCand (ctrlInitState ["A"]).CC0 (ctrlInitState ["A"]).CC1
        { gtype := "XOR", out := "X", ins := ["A"] } =
      some (EV.fin 2, EV.fin 2) ∧
    (ctrlInitState ["A"]).CC0 "X" = EV.inf ∧
    (ctrlRelaxGate (ctrlInitState ["A"])
        { gtype := "XOR", out := "X", ins := ["A"] }).1.CC0 "X" = EV.fin 2 := by
  decide

/-- Claim C10: build_observability's result does not depend on its
fanout-list argument: the parameter is bound and never read, so the
function is literally constant in it. -/
theorem c10_observability_ignores_fanout (nets outputs : List String)
    (fan1 fan2 : List (String × List String)) (cc0 cc1 : NetMap)
    (gates : List Gate) (fuel : Nat) :
    build_observability nets outputs fan1 cc0 cc1 gates fuel =
      build_observability nets outputs fan2 cc0 cc1 gates fuel := rfl
